import Mathlib

/-!
# Steady-state outlet concentration of B in a CSTR (`src/reactor_model.c`)

The repository consists of one C function,

    double compute_CB(double Q, double CA_in, double k1, double k2, double Vr) {
        return (2.0 * k1 * Vr * Q * CA_in) / ((Q + k1 * Vr) * (Q + k2 * Vr));
    }

Two embeddings of it are given, for the two readings under which its properties
are stated.

* `Reactor.compute_CB` over `Reactor.Double` is the reading "arithmetic as exact
  real arithmetic": a value is NaN, a signed infinity, a signed zero, or a nonzero
  rational; `*`, `+`, `/` follow the IEEE 754 rules for the special values and for
  the sign of zero, and finite results are computed exactly (no rounding, no
  overflow, no underflow).  It is used for the statements about the formula as a
  formula of real numbers.

* `Reactor.IEEE.compute_CB` over `Reactor.IEEE.Binary64` is the arithmetic the
  compiled function performs: IEEE 754 binary64 with a 53-bit significand,
  exponents from -1074 to 971, round to nearest with ties to even, gradual
  underflow and overflow to infinity.  It is used for the statements about the
  `double` the function returns.
-/

namespace Reactor

/-- Values of the C type `double` in the exact reading: the nonzero finite values are
exact rationals. -/
inductive Double where
  | nan
  | inf (neg : Bool)
  | zero (neg : Bool)
  | num (q : ℚ) (h : q ≠ 0)
  deriving DecidableEq

namespace Double

/-- The `double` that denotes the rational `q` (zero is `+0`). -/
def ofRat (q : ℚ) : Double :=
  if h : q = 0 then zero false else num q h

/-- The real (here: rational) number a `double` denotes, if it is finite. -/
def toRat? : Double → Option ℚ
  | nan => none
  | inf _ => none
  | zero _ => some 0
  | num q _ => some q

/-- Finite values: neither NaN nor an infinity. -/
def isFinite : Double → Bool
  | nan => false
  | inf _ => false
  | zero _ => true
  | num _ _ => true

/-- IEEE 754 multiplication, exact on finite operands. -/
def mul : Double → Double → Double
  | nan, _ => nan
  | inf _, nan => nan
  | inf s, inf t => inf (Bool.xor s t)
  | inf _, zero _ => nan
  | inf s, num q _ => inf (Bool.xor s (decide (q < 0)))
  | zero _, nan => nan
  | zero _, inf _ => nan
  | zero s, zero t => zero (Bool.xor s t)
  | zero s, num q _ => zero (Bool.xor s (decide (q < 0)))
  | num _ _, nan => nan
  | num q _, inf t => inf (Bool.xor (decide (q < 0)) t)
  | num q _, zero t => zero (Bool.xor (decide (q < 0)) t)
  | num a ha, num b hb => num (a * b) (mul_ne_zero ha hb)

/-- IEEE 754 addition (round to nearest), exact on finite operands: an exact sum
of zero has sign `+` unless both operands are `-0`. -/
def add : Double → Double → Double
  | nan, _ => nan
  | inf _, nan => nan
  | inf s, inf t => if s = t then inf s else nan
  | inf s, zero _ => inf s
  | inf s, num _ _ => inf s
  | zero _, nan => nan
  | zero _, inf t => inf t
  | zero s, zero t => zero (s && t)
  | zero _, num q h => num q h
  | num _ _, nan => nan
  | num _ _, inf t => inf t
  | num q h, zero _ => num q h
  | num a _, num b _ => ofRat (a + b)

/-- IEEE 754 division, exact on finite operands: `0/0` and `∞/∞` are NaN, a
nonzero value divided by a zero is an infinity. -/
def div : Double → Double → Double
  | nan, _ => nan
  | inf _, nan => nan
  | inf _, inf _ => nan
  | inf s, zero t => inf (Bool.xor s t)
  | inf s, num q _ => inf (Bool.xor s (decide (q < 0)))
  | zero _, nan => nan
  | zero s, inf t => zero (Bool.xor s t)
  | zero _, zero _ => nan
  | zero s, num q _ => zero (Bool.xor s (decide (q < 0)))
  | num _ _, nan => nan
  | num q _, inf t => zero (Bool.xor (decide (q < 0)) t)
  | num q _, zero t => inf (Bool.xor (decide (q < 0)) t)
  | num a ha, num b hb => num (a / b) (div_ne_zero ha hb)

instance : Mul Double := ⟨mul⟩
instance : Add Double := ⟨add⟩
instance : Div Double := ⟨div⟩

end Double

/-! ## IEEE 754 binary64 arithmetic -/

namespace IEEE

/-- An IEEE 754 binary64 value: NaN, a signed infinity, or the finite number
`(-1)^neg · m · 2^e`.  The values a `double` can hold are those with `m < 2^53`,
`-1074 ≤ e ≤ 971`, written with `2^52 ≤ m` unless `e = -1074`; zero is `m = 0`. -/
inductive Binary64 where
  | nan
  | inf (neg : Bool)
  | fin (neg : Bool) (m : Nat) (e : Int)
  deriving DecidableEq

namespace Binary64

/-- Number of binary digits of `m`, counted in at most `fuel` steps that drop 64
digits at a time while there are more than 64, and then one digit at a time. -/
def bitLengthAux : Nat → Nat → Nat
  | 0, _ => 0
  | fuel + 1, m =>
    if m = 0 then 0
    else if 2 ^ 64 ≤ m then bitLengthAux fuel (m / 2 ^ 64) + 64
    else bitLengthAux fuel (m / 2) + 1

/-- Number of binary digits of `m`. -/
def bitLength (m : Nat) : Nat :=
  bitLengthAux m m

/-- Last step of rounding: a significand rounded up to `2^53` is renormalised, and
an exponent above 971 overflows to infinity. -/
def pack (neg : Bool) (m : Nat) (e : Int) : Binary64 :=
  if m = 2 ^ 53 then
    if e + 1 > 971 then inf neg else fin neg (2 ^ 52) (e + 1)
  else if e > 971 then inf neg
  else fin neg m e

/-- Round the exact value `(-1)^neg · m · 2^e` to binary64: to nearest, ties to even,
with gradual underflow below `2^-1022` and overflow to infinity. -/
def roundEven (neg : Bool) (m : Nat) (e : Int) : Binary64 :=
  if m = 0 then fin neg 0 (-1074)
  else
    let t : Int := max (e + (bitLength m : Int) - 53) (-1074)
    if t ≤ e then pack neg (m * 2 ^ (e - t).toNat) t
    else
      let sh := (t - e).toNat
      let q := m / 2 ^ sh
      let r := m % 2 ^ sh
      let half := 2 ^ (sh - 1)
      if r > half ∨ (r = half ∧ q % 2 = 1) then pack neg (q + 1) t else pack neg q t

/-- Multiplication of two `double`s: the exact product, rounded. -/
def mul : Binary64 → Binary64 → Binary64
  | nan, _ => nan
  | inf _, nan => nan
  | inf s, inf t => inf (Bool.xor s t)
  | inf s, fin t m _ => if m = 0 then nan else inf (Bool.xor s t)
  | fin _ _ _, nan => nan
  | fin s m _, inf t => if m = 0 then nan else inf (Bool.xor s t)
  | fin s m e, fin t n f => roundEven (Bool.xor s t) (m * n) (e + f)

/-- Addition of two `double`s: the exact sum, rounded; an exact sum of zero is `+0`
unless both operands are `-0`. -/
def add : Binary64 → Binary64 → Binary64
  | nan, _ => nan
  | inf _, nan => nan
  | inf s, inf t => if s = t then inf s else nan
  | inf s, fin _ _ _ => inf s
  | fin _ _ _, nan => nan
  | fin _ _ _, inf t => inf t
  | fin s m e, fin t n f =>
    let g : Int := min e f
    let a := m * 2 ^ (e - g).toNat
    let b := n * 2 ^ (f - g).toNat
    if s = t then roundEven s (a + b) g
    else if b < a then roundEven s (a - b) g
    else if a < b then roundEven t (b - a) g
    else fin false 0 (-1074)

/-- Division of two `double`s: the exact quotient, rounded.  The quotient of the
significands is taken with at least 55 digits and a sticky last digit, which
rounds as the exact quotient does. -/
def div : Binary64 → Binary64 → Binary64
  | nan, _ => nan
  | inf _, nan => nan
  | inf _, inf _ => nan
  | inf s, fin t _ _ => inf (Bool.xor s t)
  | fin _ _ _, nan => nan
  | fin s _ _, inf t => fin (Bool.xor s t) 0 (-1074)
  | fin s m e, fin t n f =>
    if n = 0 then (if m = 0 then nan else inf (Bool.xor s t))
    else
      let k := bitLength n + 54
      let q := (m * 2 ^ k) / n
      let r := (m * 2 ^ k) % n
      roundEven (Bool.xor s t) (2 * q + (if r = 0 then 0 else 1)) (e - f - (k : Int) - 1)

instance : Mul Binary64 := ⟨mul⟩
instance : Add Binary64 := ⟨add⟩
instance : Div Binary64 := ⟨div⟩

/-- The `double` of a natural number (the nearest one, if it has more than 53 digits). -/
def ofNat (n : Nat) : Binary64 :=
  roundEven false n 0

/-- The `double` `2^k`, for `-1022 ≤ k ≤ 1023`. -/
def pow2 (k : Int) : Binary64 :=
  fin false (2 ^ 52) (k - 52)

/-- Unary minus: the sign is flipped. -/
def neg : Binary64 → Binary64
  | nan => nan
  | inf s => inf (!s)
  | fin s m e => fin (!s) m e

/-- The rational number a finite `double` denotes. -/
def toRat? : Binary64 → Option ℚ
  | nan => none
  | inf _ => none
  | fin s m e => some ((if s then -1 else 1) * (m : ℚ) * (2 : ℚ) ^ e)

/-- The C comparison `x == 0.0`. -/
def isZero : Binary64 → Bool
  | nan => false
  | inf _ => false
  | fin _ m _ => m == 0

/-- The C comparison `x >= 0.0`. -/
def geZero : Binary64 → Bool
  | nan => false
  | inf s => !s
  | fin s m _ => !s || m == 0

/-- The C comparison `x > 0.0`. -/
def gtZero : Binary64 → Bool
  | nan => false
  | inf s => !s
  | fin s m _ => !s && m != 0

/-- The C comparison `x < 0.0`. -/
def ltZero : Binary64 → Bool
  | nan => false
  | inf s => s
  | fin s m _ => s && m != 0

/-- The sign bit of a value that is not NaN. -/
def signBit : Binary64 → Bool
  | nan => false
  | inf s => s
  | fin s _ _ => s

/-- A value that is not negative: NaN or `≥ 0`. -/
def NotNeg (x : Binary64) : Prop := x = nan ∨ x.geZero = true

/-- A value without a minus sign: NaN or sign bit clear. -/
def SignClear (x : Binary64) : Prop := x = nan ∨ x.signBit = false

/-- A value that is NaN or a zero. -/
def ZeroOrNaN (x : Binary64) : Prop := x = nan ∨ x.isZero = true

end Binary64

/-- The numerator `2.0 * k1 * Vr * Q * CA_in` of the returned expression, evaluated
from left to right as C does. -/
def numerator (Q CA_in k1 Vr : Binary64) : Binary64 :=
  Binary64.ofNat 2 * k1 * Vr * Q * CA_in

/-- A denominator factor `Q + k * Vr` of the returned expression. -/
def factor (Q k Vr : Binary64) : Binary64 :=
  Q + k * Vr

/-- The function of `src/reactor_model.c` in binary64 arithmetic:
`(2.0 * k1 * Vr * Q * CA_in) / ((Q + k1 * Vr) * (Q + k2 * Vr))`. -/
def compute_CB (Q CA_in k1 k2 Vr : Binary64) : Binary64 :=
  numerator Q CA_in k1 Vr / (factor Q k1 Vr * factor Q k2 Vr)

/-- How a call can end for the caller: with a returned `double`, or with a
reported domain error. -/
inductive Outcome where
  | returned (v : Binary64)
  | domainError
  deriving DecidableEq

/-- A call of `compute_CB` as the caller sees it: the body is a single `return` of an
arithmetic expression of type `double`, so every call returns the value of it. -/
def call_compute_CB (Q CA_in k1 k2 Vr : Binary64) : Outcome :=
  Outcome.returned (compute_CB Q CA_in k1 k2 Vr)

end IEEE

open Double

/-- The function of `src/reactor_model.c` in the exact reading: one expression, no
branch, no check. -/
def compute_CB (Q CA_in k1 k2 Vr : Double) : Double :=
  (ofRat 2 * k1 * Vr * Q * CA_in) / ((Q + k1 * Vr) * (Q + k2 * Vr))

/-- How a call can end for the caller: with a returned `double`, or with a
reported domain error. -/
inductive Outcome where
  | returned (v : Double)
  | domainError
  deriving DecidableEq

/-- A call of `compute_CB` as the caller sees it.  The C function has return type
`double` and its body is a single `return` of an arithmetic expression, so every
call ends by returning the value of that expression. -/
def call_compute_CB (Q CA_in k1 k2 Vr : Double) : Outcome :=
  Outcome.returned (compute_CB Q CA_in k1 k2 Vr)

/-- Numerator of the formula, in exact arithmetic. -/
def numerator (Q CA_in k1 Vr : ℚ) : ℚ := 2 * k1 * Vr * Q * CA_in

/-- Denominator of the formula, in exact arithmetic. -/
def denominator (Q k1 k2 Vr : ℚ) : ℚ := (Q + k1 * Vr) * (Q + k2 * Vr)

/-! ## Arithmetic of the model on finite values -/

namespace Double

theorem mul_eq (x y : Double) : x * y = mul x y := rfl

theorem add_eq (x y : Double) : x + y = add x y := rfl

theorem div_eq (x y : Double) : x / y = div x y := rfl

theorem ofRat_zero : ofRat 0 = zero false := by
  simp [ofRat]

theorem ofRat_of_ne {q : ℚ} (h : q ≠ 0) : ofRat q = num q h := by
  simp [ofRat, h]

theorem toRat?_ofRat (q : ℚ) : (ofRat q).toRat? = some q := by
  by_cases h : q = 0
  · subst h; simp [ofRat, toRat?]
  · simp [ofRat, h, toRat?]

theorem toRat?_mul {x y : Double} {a b : ℚ} (hx : x.toRat? = some a)
    (hy : y.toRat? = some b) : (x * y).toRat? = some (a * b) := by
  cases x <;> cases y <;> simp only [toRat?, Option.some.injEq, reduceCtorEq] at hx hy <;>
    subst_vars <;> simp [mul_eq, mul, toRat?]

theorem toRat?_add {x y : Double} {a b : ℚ} (hx : x.toRat? = some a)
    (hy : y.toRat? = some b) : (x + y).toRat? = some (a + b) := by
  cases x <;> cases y <;> simp only [toRat?, Option.some.injEq, reduceCtorEq] at hx hy <;>
    subst_vars <;> simp only [add_eq, add, toRat?_ofRat] <;> simp [toRat?]

theorem toRat?_div {x y : Double} {a b : ℚ} (hx : x.toRat? = some a)
    (hy : y.toRat? = some b) (hb : b ≠ 0) : (x / y).toRat? = some (a / b) := by
  cases x <;> cases y <;> simp only [toRat?, Option.some.injEq, reduceCtorEq] at hx hy <;>
    subst_vars <;> simp [div_eq, div, toRat?] at hb ⊢

theorem div_zero_zero {x y : Double} (hx : x.toRat? = some 0) (hy : y.toRat? = some 0) :
    x / y = nan := by
  cases x <;> cases y <;> simp only [toRat?, Option.some.injEq, reduceCtorEq] at hx hy <;>
    first
      | rfl
      | (subst_vars; contradiction)

theorem div_zero_inf {x y : Double} {a : ℚ} (hx : x.toRat? = some a) (ha : a ≠ 0)
    (hy : y.toRat? = some 0) : ∃ s, x / y = inf s := by
  cases x <;> cases y <;> simp only [toRat?, Option.some.injEq, reduceCtorEq] at hx hy <;>
    first
      | exact ⟨_, rfl⟩
      | (subst_vars; contradiction)

end Double

/-! ## The value of `compute_CB` on finite arguments -/

theorem toRat?_numerator (Q CA_in k1 Vr : ℚ) :
    (ofRat 2 * ofRat k1 * ofRat Vr * ofRat Q * ofRat CA_in).toRat?
      = some (numerator Q CA_in k1 Vr) :=
  toRat?_mul (toRat?_mul (toRat?_mul (toRat?_mul (toRat?_ofRat 2) (toRat?_ofRat k1))
    (toRat?_ofRat Vr)) (toRat?_ofRat Q)) (toRat?_ofRat CA_in)

theorem toRat?_denominator (Q k1 k2 Vr : ℚ) :
    ((ofRat Q + ofRat k1 * ofRat Vr) * (ofRat Q + ofRat k2 * ofRat Vr)).toRat?
      = some (denominator Q k1 k2 Vr) :=
  toRat?_mul
    (toRat?_add (toRat?_ofRat Q) (toRat?_mul (toRat?_ofRat k1) (toRat?_ofRat Vr)))
    (toRat?_add (toRat?_ofRat Q) (toRat?_mul (toRat?_ofRat k2) (toRat?_ofRat Vr)))

/-- With a nonzero denominator the call returns the quotient of the formula. -/
theorem compute_CB_of_ne_zero (Q CA_in k1 k2 Vr : ℚ) (hD : denominator Q k1 k2 Vr ≠ 0) :
    (compute_CB (ofRat Q) (ofRat CA_in) (ofRat k1) (ofRat k2) (ofRat Vr)).toRat?
      = some (numerator Q CA_in k1 Vr / denominator Q k1 k2 Vr) :=
  toRat?_div (toRat?_numerator Q CA_in k1 Vr) (toRat?_denominator Q k1 k2 Vr) hD

/-- With a zero denominator and a zero numerator the call returns NaN. -/
theorem compute_CB_nan (Q CA_in k1 k2 Vr : ℚ) (hN : numerator Q CA_in k1 Vr = 0)
    (hD : denominator Q k1 k2 Vr = 0) :
    compute_CB (ofRat Q) (ofRat CA_in) (ofRat k1) (ofRat k2) (ofRat Vr) = nan :=
  div_zero_zero (hN ▸ toRat?_numerator Q CA_in k1 Vr) (hD ▸ toRat?_denominator Q k1 k2 Vr)

/-- With a zero denominator and a nonzero numerator the call returns an infinity. -/
theorem compute_CB_inf (Q CA_in k1 k2 Vr : ℚ) (hN : numerator Q CA_in k1 Vr ≠ 0)
    (hD : denominator Q k1 k2 Vr = 0) :
    ∃ s, compute_CB (ofRat Q) (ofRat CA_in) (ofRat k1) (ofRat k2) (ofRat Vr) = inf s :=
  div_zero_inf (toRat?_numerator Q CA_in k1 Vr) hN (hD ▸ toRat?_denominator Q k1 k2 Vr)

/-- With a zero denominator the call returns no finite value. -/
theorem compute_CB_of_eq_zero (Q CA_in k1 k2 Vr : ℚ) (hD : denominator Q k1 k2 Vr = 0) :
    (compute_CB (ofRat Q) (ofRat CA_in) (ofRat k1) (ofRat k2) (ofRat Vr)).toRat? = none := by
  by_cases hN : numerator Q CA_in k1 Vr = 0
  · rw [compute_CB_nan Q CA_in k1 k2 Vr hN hD]; rfl
  · obtain ⟨s, hs⟩ := compute_CB_inf Q CA_in k1 k2 Vr hN hD
    rw [hs]; rfl

namespace Double

theorem nan_mul (y : Double) : nan * y = nan := rfl

theorem mul_nan (x : Double) : x * nan = nan := by
  cases x <;> rfl

theorem nan_add (y : Double) : nan + y = nan := rfl

theorem add_nan (x : Double) : x + nan = nan := by
  cases x <;> rfl

theorem nan_div (y : Double) : nan / y = nan := rfl

theorem div_nan (x : Double) : x / nan = nan := by
  cases x <;> rfl

theorem not_finite_cases {x : Double} (h : x.isFinite = false) : x = nan ∨ ∃ s, x = inf s := by
  cases x <;> simp [isFinite] at h ⊢

theorem isFinite_mul_left {x : Double} (y : Double) (h : x.isFinite = false) :
    (x * y).isFinite = false := by
  cases x <;> cases y <;> simp [isFinite, mul_eq, mul] at h ⊢

theorem isFinite_mul_right (x : Double) {y : Double} (h : y.isFinite = false) :
    (x * y).isFinite = false := by
  cases x <;> cases y <;> simp [isFinite, mul_eq, mul] at h ⊢

theorem isFinite_add_left {x : Double} (y : Double) (h : x.isFinite = false) :
    (x + y).isFinite = false := by
  cases x <;> cases y <;> simp only [add_eq, add] <;>
    first
      | rfl
      | (split_ifs <;> rfl)
      | (simp [isFinite] at h)

theorem isFinite_add_right (x : Double) {y : Double} (h : y.isFinite = false) :
    (x + y).isFinite = false := by
  cases x <;> cases y <;> simp only [add_eq, add] <;>
    first
      | rfl
      | (split_ifs <;> rfl)
      | (simp [isFinite] at h)

theorem isFinite_div_left {x : Double} (y : Double) (h : x.isFinite = false) :
    (x / y).isFinite = false := by
  cases x <;> cases y <;> simp [isFinite, div_eq, div] at h ⊢

theorem div_not_finite {x y : Double} (hx : x.isFinite = false) (hy : y.isFinite = false) :
    x / y = nan := by
  cases x <;> cases y <;> simp [isFinite, div_eq, div] at hx hy ⊢

theorem div_right_not_finite (x : Double) {y : Double} (hy : y.isFinite = false) :
    x / y = nan ∨ ∃ s, x / y = zero s := by
  cases x <;> cases y <;> simp [isFinite, div_eq, div] at hy ⊢

end Double

/-! ## Signs and zeros in binary64 arithmetic -/

namespace IEEE

namespace Binary64

theorem mul_def (x y : Binary64) : x * y = mul x y := rfl

theorem add_def (x y : Binary64) : x + y = add x y := rfl

theorem div_def (x y : Binary64) : x / y = div x y := rfl

theorem pack_cases (s : Bool) (m : Nat) (e : Int) :
    pack s m e = inf s ∨ ∃ n f, pack s m e = fin s n f := by
  unfold pack
  split_ifs
  · exact Or.inl rfl
  · exact Or.inr ⟨_, _, rfl⟩
  · exact Or.inl rfl
  · exact Or.inr ⟨_, _, rfl⟩

/-- Rounding keeps the sign: the result is the infinity or a finite value of sign `s`. -/
theorem roundEven_cases (s : Bool) (m : Nat) (e : Int) :
    roundEven s m e = inf s ∨ ∃ n f, roundEven s m e = fin s n f := by
  unfold roundEven
  dsimp only
  split_ifs
  · exact Or.inr ⟨_, _, rfl⟩
  · exact pack_cases _ _ _
  · exact pack_cases _ _ _
  · exact pack_cases _ _ _

theorem roundEven_zero (s : Bool) (e : Int) : roundEven s 0 e = fin s 0 (-1074) := by
  simp [roundEven]

theorem ZeroOrNaN.notNeg {x : Binary64} (h : ZeroOrNaN x) : NotNeg x := by
  rcases h with h | h
  · exact Or.inl h
  · cases x <;> simp [isZero] at h
    exact Or.inr (by simp [geZero, h])

theorem notNeg_roundEven {s : Bool} {m : Nat} (e : Int) (h : s = false ∨ m = 0) :
    NotNeg (roundEven s m e) := by
  rcases h with h | h
  · subst h
    rcases roundEven_cases false m e with h1 | ⟨n, f, h1⟩ <;> rw [h1] <;>
      exact Or.inr (by simp [geZero])
  · subst h
    rw [roundEven_zero]
    exact Or.inr (by simp [geZero])

theorem signClear_roundEven (m : Nat) (e : Int) : SignClear (roundEven false m e) := by
  rcases roundEven_cases false m e with h1 | ⟨n, f, h1⟩ <;> rw [h1] <;>
    exact Or.inr rfl

theorem zeroOrNaN_roundEven (s : Bool) (e : Int) : ZeroOrNaN (roundEven s 0 e) := by
  rw [roundEven_zero]
  exact Or.inr rfl

theorem notNeg_mul {x y : Binary64} (hx : NotNeg x) (hy : NotNeg y) : NotNeg (x * y) := by
  rcases hx with hx | hx
  · subst hx; exact Or.inl rfl
  rcases hy with hy | hy
  · subst hy; cases x <;> exact Or.inl rfl
  cases x with
  | nan => exact Or.inl rfl
  | inf s =>
    cases y with
    | nan => exact Or.inl rfl
    | inf t =>
      simp only [geZero, Bool.not_eq_true'] at hx hy
      subst hx; subst hy
      exact Or.inr rfl
    | fin t n f =>
      simp only [geZero, Bool.not_eq_true', Bool.or_eq_true, beq_iff_eq] at hx hy
      subst hx
      by_cases hn : n = 0
      · exact Or.inl (by simp [mul_def, mul, hn])
      · have ht : t = false := by tauto
        subst ht
        exact Or.inr (by simp [mul_def, mul, hn, geZero])
  | fin s m e =>
    cases y with
    | nan => exact Or.inl rfl
    | inf t =>
      simp only [geZero, Bool.not_eq_true', Bool.or_eq_true, beq_iff_eq] at hx hy
      subst hy
      by_cases hm : m = 0
      · exact Or.inl (by simp [mul_def, mul, hm])
      · have hs : s = false := by tauto
        subst hs
        exact Or.inr (by simp [mul_def, mul, hm, geZero])
    | fin t n f =>
      simp only [geZero, Bool.not_eq_true', Bool.or_eq_true, beq_iff_eq] at hx hy
      show NotNeg (roundEven (Bool.xor s t) (m * n) (e + f))
      apply notNeg_roundEven
      rcases hx with hx | hx
      · rcases hy with hy | hy
        · exact Or.inl (by simp [hx, hy])
        · exact Or.inr (by simp [hy])
      · exact Or.inr (by simp [hx])

theorem signClear_mul {x y : Binary64} (hx : SignClear x) (hy : SignClear y) :
    SignClear (x * y) := by
  rcases hx with hx | hx
  · subst hx; exact Or.inl rfl
  rcases hy with hy | hy
  · subst hy; cases x <;> exact Or.inl rfl
  cases x with
  | nan => exact Or.inl rfl
  | inf s =>
    cases y with
    | nan => exact Or.inl rfl
    | inf t =>
      simp only [signBit] at hx hy
      subst hx; subst hy
      exact Or.inr rfl
    | fin t n f =>
      simp only [signBit] at hx hy
      subst hx; subst hy
      by_cases hn : n = 0
      · exact Or.inl (by simp [mul_def, mul, hn])
      · exact Or.inr (by simp [mul_def, mul, hn, signBit])
  | fin s m e =>
    cases y with
    | nan => exact Or.inl rfl
    | inf t =>
      simp only [signBit] at hx hy
      subst hx; subst hy
      by_cases hm : m = 0
      · exact Or.inl (by simp [mul_def, mul, hm])
      · exact Or.inr (by simp [mul_def, mul, hm, signBit])
    | fin t n f =>
      simp only [signBit] at hx hy
      subst hx; subst hy
      exact signClear_roundEven _ _

theorem zeroOrNaN_mul_left {x : Binary64} (y : Binary64) (hx : ZeroOrNaN x) :
    ZeroOrNaN (x * y) := by
  rcases hx with hx | hx
  · subst hx; exact Or.inl rfl
  cases x with
  | nan => exact Or.inl rfl
  | inf s => simp [isZero] at hx
  | fin s m e =>
    simp only [isZero, beq_iff_eq] at hx
    subst hx
    cases y with
    | nan => exact Or.inl rfl
    | inf t => exact Or.inl (by simp [mul_def, mul])
    | fin t n f =>
      show ZeroOrNaN (roundEven (Bool.xor s t) (0 * n) (e + f))
      rw [Nat.zero_mul]
      exact zeroOrNaN_roundEven _ _

theorem zeroOrNaN_mul_right (x : Binary64) {y : Binary64} (hy : ZeroOrNaN y) :
    ZeroOrNaN (x * y) := by
  rcases hy with hy | hy
  · subst hy; cases x <;> exact Or.inl rfl
  cases y with
  | nan => cases x <;> exact Or.inl rfl
  | inf s => simp [isZero] at hy
  | fin t n f =>
    simp only [isZero, beq_iff_eq] at hy
    subst hy
    cases x with
    | nan => exact Or.inl rfl
    | inf s => exact Or.inl (by simp [mul_def, mul])
    | fin s m e =>
      show ZeroOrNaN (roundEven (Bool.xor s t) (m * 0) (e + f))
      rw [Nat.mul_zero]
      exact zeroOrNaN_roundEven _ _

theorem gtZero_of_geZero {x : Binary64} (hx : x.geZero = true) (hz : ¬ ZeroOrNaN x) :
    x.gtZero = true := by
  cases x with
  | nan => simp [geZero] at hx
  | inf s => simpa [geZero, gtZero] using hx
  | fin s m e =>
    have hm : m ≠ 0 := fun h => hz (Or.inr (by simp [isZero, h]))
    simp only [geZero, Bool.or_eq_true, Bool.not_eq_true', beq_iff_eq] at hx
    have hs : s = false := by tauto
    simp [gtZero, hs, hm]

/-- A strictly positive value plus a value that is not negative has no minus sign. -/
theorem signClear_add {x y : Binary64} (hx : x.gtZero = true) (hy : NotNeg y) :
    SignClear (x + y) := by
  rcases hy with hy | hy
  · subst hy; cases x <;> exact Or.inl rfl
  cases x with
  | nan => simp [gtZero] at hx
  | inf s =>
    simp only [gtZero, Bool.not_eq_true'] at hx
    subst hx
    cases y with
    | nan => exact Or.inl rfl
    | inf t =>
      simp only [geZero, Bool.not_eq_true'] at hy
      subst hy
      exact Or.inr rfl
    | fin t n f => exact Or.inr rfl
  | fin s m e =>
    simp only [gtZero, Bool.and_eq_true, Bool.not_eq_true', bne_iff_ne] at hx
    obtain ⟨hs, hm⟩ := hx
    subst hs
    cases y with
    | nan => exact Or.inl rfl
    | inf t =>
      simp only [geZero, Bool.not_eq_true'] at hy
      subst hy
      exact Or.inr rfl
    | fin t n f =>
      simp only [geZero, Bool.or_eq_true, Bool.not_eq_true', beq_iff_eq] at hy
      rw [add_def]
      unfold add
      dsimp only
      split_ifs with h1 h2 h3
      · exact signClear_roundEven _ _
      · exact signClear_roundEven _ _
      · exfalso
        have ht : t = true := by
          cases t
          · exact absurd rfl h1
          · rfl
        have hn : n = 0 := by
          rcases hy with hy | hy
          · rw [ht] at hy; exact absurd hy (by simp)
          · exact hy
        rw [hn] at h3
        simp at h3
      · exact Or.inr rfl

theorem notNeg_div {x y : Binary64} (hx : NotNeg x) (hy : SignClear y) : NotNeg (x / y) := by
  rcases hx with hx | hx
  · subst hx; exact Or.inl rfl
  rcases hy with hy | hy
  · subst hy; cases x <;> exact Or.inl rfl
  cases x with
  | nan => exact Or.inl rfl
  | inf s =>
    simp only [geZero, Bool.not_eq_true'] at hx
    subst hx
    cases y with
    | nan => exact Or.inl rfl
    | inf t => exact Or.inl rfl
    | fin t n f =>
      simp only [signBit] at hy
      subst hy
      exact Or.inr rfl
  | fin s m e =>
    simp only [geZero, Bool.or_eq_true, Bool.not_eq_true', beq_iff_eq] at hx
    cases y with
    | nan => exact Or.inl rfl
    | inf t => exact Or.inr (by simp [div_def, div, geZero])
    | fin t n f =>
      simp only [signBit] at hy
      subst hy
      rw [div_def]
      unfold div
      dsimp only
      by_cases hn : n = 0
      · rw [if_pos hn]
        by_cases hm : m = 0
        · rw [if_pos hm]; exact Or.inl rfl
        · rw [if_neg hm]
          have hs : s = false := by tauto
          subst hs
          exact Or.inr rfl
      · rw [if_neg hn]
        apply notNeg_roundEven
        rcases hx with hx | hx
        · exact Or.inl (by simp [hx])
        · exact Or.inr (by simp [hx])

theorem zeroOrNaN_div {x : Binary64} (y : Binary64) (hx : ZeroOrNaN x) :
    ZeroOrNaN (x / y) := by
  rcases hx with hx | hx
  · subst hx; exact Or.inl rfl
  cases x with
  | nan => exact Or.inl rfl
  | inf s => simp [isZero] at hx
  | fin s m e =>
    simp only [isZero, beq_iff_eq] at hx
    subst hx
    cases y with
    | nan => exact Or.inl rfl
    | inf t => exact Or.inr rfl
    | fin t n f =>
      rw [div_def]
      unfold div
      dsimp only
      by_cases hn : n = 0
      · rw [if_pos hn, if_pos rfl]; exact Or.inl rfl
      · rw [if_neg hn]
        simp only [Nat.zero_mul, Nat.zero_div, Nat.zero_mod, if_true, Nat.mul_zero,
          Nat.add_zero]
        exact zeroOrNaN_roundEven _ _

theorem notNeg_ofNat (n : Nat) : NotNeg (ofNat n) :=
  notNeg_roundEven 0 (Or.inl rfl)

end Binary64

open Binary64

/-! ## Sign of the value returned in binary64 arithmetic -/

/-- The numerator is NaN or a zero as soon as one of its factors is a zero. -/
theorem zeroOrNaN_numerator {Q CA_in k1 Vr : Binary64}
    (h : ZeroOrNaN Q ∨ ZeroOrNaN CA_in ∨ ZeroOrNaN k1 ∨ ZeroOrNaN Vr) :
    ZeroOrNaN (numerator Q CA_in k1 Vr) := by
  unfold numerator
  rcases h with h | h | h | h
  · exact zeroOrNaN_mul_left _ (zeroOrNaN_mul_right _ h)
  · exact zeroOrNaN_mul_right _ h
  · exact zeroOrNaN_mul_left _ (zeroOrNaN_mul_left _
      (zeroOrNaN_mul_left _ (zeroOrNaN_mul_right _ h)))
  · exact zeroOrNaN_mul_left _ (zeroOrNaN_mul_left _ (zeroOrNaN_mul_right _ h))

/-- On arguments that are all `≥ 0` the value returned is NaN or `≥ 0`. -/
theorem notNeg_compute_CB {Q CA_in k1 k2 Vr : Binary64} (hQ : Q.geZero = true)
    (hCA : CA_in.geZero = true) (hk1 : k1.geZero = true) (hk2 : k2.geZero = true)
    (hVr : Vr.geZero = true) : NotNeg (compute_CB Q CA_in k1 k2 Vr) := by
  unfold compute_CB
  by_cases hz : ZeroOrNaN Q
  · exact (zeroOrNaN_div _ (zeroOrNaN_numerator (Or.inl hz))).notNeg
  · have hpos := gtZero_of_geZero hQ hz
    have hN : NotNeg (numerator Q CA_in k1 Vr) :=
      notNeg_mul (notNeg_mul (notNeg_mul (notNeg_mul (notNeg_ofNat 2) (Or.inr hk1))
        (Or.inr hVr)) (Or.inr hQ)) (Or.inr hCA)
    have h1 : SignClear (factor Q k1 Vr) :=
      signClear_add hpos (notNeg_mul (Or.inr hk1) (Or.inr hVr))
    have h2 : SignClear (factor Q k2 Vr) :=
      signClear_add hpos (notNeg_mul (Or.inr hk2) (Or.inr hVr))
    exact notNeg_div hN (signClear_mul h1 h2)

end IEEE

/-! ## Claims C1 to C8 -/

set_option maxRecDepth 100000

/-- C1: in exact arithmetic `compute_CB` is the literal formula
`(2·k1·Vr·Q·CA_in) / ((Q + k1·Vr)·(Q + k2·Vr))`, factor 2 included: on all
rational arguments the returned value denotes a number exactly when the
denominator is nonzero, and that number is the quotient of the formula. -/
theorem compute_CB_eq_formula (Q CA_in k1 k2 Vr : ℚ) :
    (compute_CB (ofRat Q) (ofRat CA_in) (ofRat k1) (ofRat k2) (ofRat Vr)).toRat? =
      if (Q + k1 * Vr) * (Q + k2 * Vr) = 0 then none
      else some ((2 * k1 * Vr * Q * CA_in) / ((Q + k1 * Vr) * (Q + k2 * Vr))) := by
  by_cases hD : (Q + k1 * Vr) * (Q + k2 * Vr) = 0
  · rw [if_pos hD]
    exact compute_CB_of_eq_zero Q CA_in k1 k2 Vr hD
  · rw [if_neg hD]
    exact compute_CB_of_ne_zero Q CA_in k1 k2 Vr hD

namespace IEEE

/-- C3 (as stated, refuted): `compute_CB(-1.0, 2.0, 0.5, 0.25, 1.0)` does not end
with a domain error; the call returns the negative double
-6004799503160661 · 2^-50 (about -5.3333). -/
theorem compute_CB_negative_flow_returns :
    call_compute_CB (Binary64.neg (Binary64.ofNat 1)) (Binary64.ofNat 2)
      (Binary64.pow2 (-1)) (Binary64.pow2 (-2)) (Binary64.ofNat 1) ≠ Outcome.domainError ∧
    call_compute_CB (Binary64.neg (Binary64.ofNat 1)) (Binary64.ofNat 2)
      (Binary64.pow2 (-1)) (Binary64.pow2 (-2)) (Binary64.ofNat 1)
      = Outcome.returned (Binary64.fin true 6004799503160661 (-50)) := by
  decide

/-- C3 (amended): for every input in which at least one of Q, CA_in, k1, k2, Vr is
strictly negative, the call does not fail with a domain error: it returns a value;
in particular `compute_CB(-1.0, 2.0, 0.5, 0.25, 1.0)` returns the double
-6004799503160661 · 2^-50. -/
theorem compute_CB_negative_input (Q CA_in k1 k2 Vr : Binary64)
    (_h : Q.ltZero = true ∨ CA_in.ltZero = true ∨ k1.ltZero = true ∨ k2.ltZero = true ∨
      Vr.ltZero = true) :
    call_compute_CB Q CA_in k1 k2 Vr ≠ Outcome.domainError ∧
    (∃ v, call_compute_CB Q CA_in k1 k2 Vr = Outcome.returned v) ∧
    call_compute_CB (Binary64.neg (Binary64.ofNat 1)) (Binary64.ofNat 2)
      (Binary64.pow2 (-1)) (Binary64.pow2 (-2)) (Binary64.ofNat 1)
      = Outcome.returned (Binary64.fin true 6004799503160661 (-50)) :=
  ⟨by simp [call_compute_CB], ⟨_, rfl⟩, by decide⟩

/-- Witness for `compute_CB_negative_input`: the call with the negative rate
constant k1 = -0.5 and Q = 1, CA_in = 2, k2 = 0.25, Vr = 1. -/
theorem compute_CB_negative_input_witness :
    ((Binary64.ofNat 1).ltZero = true ∨ (Binary64.ofNat 2).ltZero = true ∨
      (Binary64.neg (Binary64.pow2 (-1))).ltZero = true ∨
      (Binary64.pow2 (-2)).ltZero = true ∨ (Binary64.ofNat 1).ltZero = true) ∧
    call_compute_CB (Binary64.ofNat 1) (Binary64.ofNat 2) (Binary64.neg (Binary64.pow2 (-1)))
      (Binary64.pow2 (-2)) (Binary64.ofNat 1) ≠ Outcome.domainError ∧
    (∃ v, call_compute_CB (Binary64.ofNat 1) (Binary64.ofNat 2)
      (Binary64.neg (Binary64.pow2 (-1))) (Binary64.pow2 (-2)) (Binary64.ofNat 1)
      = Outcome.returned v) ∧
    call_compute_CB (Binary64.neg (Binary64.ofNat 1)) (Binary64.ofNat 2)
      (Binary64.pow2 (-1)) (Binary64.pow2 (-2)) (Binary64.ofNat 1)
      = Outcome.returned (Binary64.fin true 6004799503160661 (-50)) :=
  ⟨by decide, compute_CB_negative_input _ _ _ _ _ (by decide)⟩

/-- C4 (as stated, refuted): at Q = 2^600, CA_in = 1, k1 = 1, k2 = 1, Vr = 2^600 all
parameters are ≥ 0 and both denominator factors are > 0, yet numerator and
denominator overflow and the value returned is NaN, which is not ≥ 0. -/
theorem compute_CB_overflow_nan :
    (Binary64.pow2 600).geZero = true ∧ (Binary64.ofNat 1).geZero = true ∧
    (factor (Binary64.pow2 600) (Binary64.ofNat 1) (Binary64.pow2 600)).gtZero = true ∧
    compute_CB (Binary64.pow2 600) (Binary64.ofNat 1) (Binary64.ofNat 1) (Binary64.ofNat 1)
      (Binary64.pow2 600) = Binary64.nan ∧
    (compute_CB (Binary64.pow2 600) (Binary64.ofNat 1) (Binary64.ofNat 1) (Binary64.ofNat 1)
      (Binary64.pow2 600)).geZero = false := by
  decide

/-- C4 (amended): for every input with all five parameters ≥ 0 and both denominator
factors strictly positive, the value returned by `compute_CB` is never negative:
it is NaN or ≥ 0. -/
theorem compute_CB_not_negative (Q CA_in k1 k2 Vr : Binary64) (hQ : Q.geZero = true)
    (hCA : CA_in.geZero = true) (hk1 : k1.geZero = true) (hk2 : k2.geZero = true)
    (hVr : Vr.geZero = true) (_h1 : (factor Q k1 Vr).gtZero = true)
    (_h2 : (factor Q k2 Vr).gtZero = true) :
    compute_CB Q CA_in k1 k2 Vr = Binary64.nan ∨
      (compute_CB Q CA_in k1 k2 Vr).geZero = true :=
  notNeg_compute_CB hQ hCA hk1 hk2 hVr

/-- Witness for `compute_CB_not_negative` at Q = 1, CA_in = 2, k1 = 0.5, k2 = 0.25,
Vr = 1. -/
theorem compute_CB_not_negative_witness :
    compute_CB (Binary64.ofNat 1) (Binary64.ofNat 2) (Binary64.pow2 (-1))
        (Binary64.pow2 (-2)) (Binary64.ofNat 1) = Binary64.nan ∨
      (compute_CB (Binary64.ofNat 1) (Binary64.ofNat 2) (Binary64.pow2 (-1))
        (Binary64.pow2 (-2)) (Binary64.ofNat 1)).geZero = true :=
  compute_CB_not_negative _ _ _ _ _ (by decide) (by decide) (by decide) (by decide)
    (by decide) (by decide) (by decide)

/-- C5 (as stated, refuted): at (1, 1, 2^1023, 1, 0), where Vr = 0, and at
(1, 0, 2^1023, 1, 1), where CA_in = 0, the input is non-negative with both
denominator factors > 0, yet `2.0 * k1` overflows, infinity times zero is NaN, and
the value returned is NaN, not 0. -/
theorem compute_CB_zero_input_nan :
    (Binary64.ofNat 0).isZero = true ∧
    (factor (Binary64.ofNat 1) (Binary64.pow2 1023) (Binary64.ofNat 0)).gtZero = true ∧
    (factor (Binary64.ofNat 1) (Binary64.ofNat 1) (Binary64.ofNat 0)).gtZero = true ∧
    compute_CB (Binary64.ofNat 1) (Binary64.ofNat 1) (Binary64.pow2 1023) (Binary64.ofNat 1)
      (Binary64.ofNat 0) = Binary64.nan ∧
    (factor (Binary64.ofNat 1) (Binary64.pow2 1023) (Binary64.ofNat 1)).gtZero = true ∧
    (factor (Binary64.ofNat 1) (Binary64.ofNat 1) (Binary64.ofNat 1)).gtZero = true ∧
    compute_CB (Binary64.ofNat 1) (Binary64.ofNat 0) (Binary64.pow2 1023) (Binary64.ofNat 1)
      (Binary64.ofNat 1) = Binary64.nan := by
  decide

/-- C5 (amended): for every non-negative input whose denominator factors are both
strictly positive, if CA_in = 0 or k1 = 0 or Vr = 0 then `compute_CB` returns
exactly 0 or NaN. -/
theorem compute_CB_zero_input (Q CA_in k1 k2 Vr : Binary64) (_hQ : Q.geZero = true)
    (_hCA : CA_in.geZero = true) (_hk1 : k1.geZero = true) (_hk2 : k2.geZero = true)
    (_hVr : Vr.geZero = true) (_h1 : (factor Q k1 Vr).gtZero = true)
    (_h2 : (factor Q k2 Vr).gtZero = true)
    (h0 : CA_in.isZero = true ∨ k1.isZero = true ∨ Vr.isZero = true) :
    compute_CB Q CA_in k1 k2 Vr = Binary64.nan ∨
      (compute_CB Q CA_in k1 k2 Vr).isZero = true := by
  have hN : Binary64.ZeroOrNaN (numerator Q CA_in k1 Vr) := by
    apply zeroOrNaN_numerator
    rcases h0 with h | h | h
    · exact Or.inr (Or.inl (Or.inr h))
    · exact Or.inr (Or.inr (Or.inl (Or.inr h)))
    · exact Or.inr (Or.inr (Or.inr (Or.inr h)))
  exact Binary64.zeroOrNaN_div _ hN

/-- Witness for `compute_CB_zero_input`: nothing enters (CA_in = 0) at Q = 1,
k1 = 2, k2 = 3, Vr = 4. -/
theorem compute_CB_zero_input_witness :
    compute_CB (Binary64.ofNat 1) (Binary64.ofNat 0) (Binary64.ofNat 2) (Binary64.ofNat 3)
        (Binary64.ofNat 4) = Binary64.nan ∨
      (compute_CB (Binary64.ofNat 1) (Binary64.ofNat 0) (Binary64.ofNat 2) (Binary64.ofNat 3)
        (Binary64.ofNat 4)).isZero = true :=
  compute_CB_zero_input _ _ _ _ _ (by decide) (by decide) (by decide) (by decide)
    (by decide) (by decide) (by decide) (Or.inl (by decide))

end IEEE

namespace IEEE

end IEEE

namespace IEEE

/-- C8 (as stated, refuted): the value returned by
`compute_CB(1.0, 2.0, 0.5, 0.25, 1.0)` is the double 4803839602528529 · 2^-52, which
is not 16/15. -/
theorem compute_CB_concrete_not_exact :
    (compute_CB (Binary64.ofNat 1) (Binary64.ofNat 2) (Binary64.pow2 (-1))
      (Binary64.pow2 (-2)) (Binary64.ofNat 1)).toRat?
      = some (4803839602528529 / 2 ^ 52) ∧
    (4803839602528529 / 2 ^ 52 : ℚ) ≠ 16 / 15 := by
  have h : compute_CB (Binary64.ofNat 1) (Binary64.ofNat 2) (Binary64.pow2 (-1))
      (Binary64.pow2 (-2)) (Binary64.ofNat 1) = Binary64.fin false 4803839602528529 (-52) := by
    decide
  refine ⟨?_, by norm_num⟩
  rw [h]
  norm_num [Binary64.toRat?]

/-- C8 (amended): `compute_CB(Q=1.0, CA_in=2.0, k1=0.5, k2=0.25, Vr=1.0)` has
denominator factors 1.5 and 1.25 and numerator 2.0, and returns the double nearest
to 2.0/(1.5·1.25) = 16/15, namely 4803839602528529 · 2^-52, within 2^-53 of 16/15,
which is 1.0667 to four decimal places (1.06665 ≤ result < 1.06675). -/
theorem compute_CB_concrete_scenario :
    (factor (Binary64.ofNat 1) (Binary64.pow2 (-1)) (Binary64.ofNat 1)).toRat?
      = some (3 / 2) ∧
    (factor (Binary64.ofNat 1) (Binary64.pow2 (-2)) (Binary64.ofNat 1)).toRat?
      = some (5 / 4) ∧
    (numerator (Binary64.ofNat 1) (Binary64.ofNat 2) (Binary64.pow2 (-1))
      (Binary64.ofNat 1)).toRat? = some 2 ∧
    (2 : ℚ) / ((3 / 2) * (5 / 4)) = 16 / 15 ∧
    compute_CB (Binary64.ofNat 1) (Binary64.ofNat 2) (Binary64.pow2 (-1))
      (Binary64.pow2 (-2)) (Binary64.ofNat 1) = Binary64.fin false 4803839602528529 (-52) ∧
    ∃ r, (compute_CB (Binary64.ofNat 1) (Binary64.ofNat 2) (Binary64.pow2 (-1))
        (Binary64.pow2 (-2)) (Binary64.ofNat 1)).toRat? = some r ∧
      |r - 16 / 15| ≤ 1 / 2 ^ 53 ∧ 106665 / 100000 ≤ r ∧ r < 106675 / 100000 := by
  have f1 : factor (Binary64.ofNat 1) (Binary64.pow2 (-1)) (Binary64.ofNat 1)
      = Binary64.fin false 6755399441055744 (-52) := by decide
  have f2 : factor (Binary64.ofNat 1) (Binary64.pow2 (-2)) (Binary64.ofNat 1)
      = Binary64.fin false 5629499534213120 (-52) := by decide
  have n : numerator (Binary64.ofNat 1) (Binary64.ofNat 2) (Binary64.pow2 (-1))
      (Binary64.ofNat 1) = Binary64.fin false 4503599627370496 (-51) := by decide
  have h : compute_CB (Binary64.ofNat 1) (Binary64.ofNat 2) (Binary64.pow2 (-1))
      (Binary64.pow2 (-2)) (Binary64.ofNat 1) = Binary64.fin false 4803839602528529 (-52) := by
    decide
  refine ⟨?_, ?_, ?_, by norm_num, h, 4803839602528529 / 2 ^ 52, ?_, ?_, ?_, ?_⟩
  · rw [f1]; norm_num [Binary64.toRat?]
  · rw [f2]; norm_num [Binary64.toRat?]
  · rw [n]; norm_num [Binary64.toRat?]
  · rw [h]; norm_num [Binary64.toRat?]
  · rw [abs_le]; constructor <;> norm_num
  · norm_num
  · norm_num

end IEEE

/-! ## Claims C9 to C16 -/

namespace IEEE

end IEEE

/-- C10 (as stated, refuted): a call with a NaN argument does not end with a
domain error but returns NaN, and a call with k2 = +∞ returns +0 without any
error: `compute_CB(NaN, 1, 1, 1, 1)` is NaN and `compute_CB(1, 1, 1, +∞, 1)` is 0. -/
theorem compute_CB_non_finite_returns :
    call_compute_CB nan (ofRat 1) (ofRat 1) (ofRat 1) (ofRat 1) ≠ Outcome.domainError ∧
    call_compute_CB nan (ofRat 1) (ofRat 1) (ofRat 1) (ofRat 1) = Outcome.returned nan ∧
    call_compute_CB (ofRat 1) (ofRat 1) (ofRat 1) (inf false) (ofRat 1)
      = Outcome.returned (zero false) := by
  refine ⟨by simp [call_compute_CB], ?_, ?_⟩
  · simp only [call_compute_CB, compute_CB, ofRat, mul_eq, mul, add_eq, add, div_eq, div]
    norm_num
  · simp only [call_compute_CB, compute_CB, ofRat, mul_eq, mul, add_eq, add, div_eq, div]
    norm_num

/-- C10 (amended): for every call in which any of the five arguments is NaN or
±infinity, `compute_CB` does not fail: it returns a value, which is NaN whenever
an argument is NaN, and which in every case is NaN, an infinity or a zero. -/
theorem compute_CB_non_finite_input (Q CA_in k1 k2 Vr : Double)
    (h : Q.isFinite = false ∨ CA_in.isFinite = false ∨ k1.isFinite = false ∨
      k2.isFinite = false ∨ Vr.isFinite = false) :
    ∃ v, call_compute_CB Q CA_in k1 k2 Vr = Outcome.returned v ∧
      ((Q = nan ∨ CA_in = nan ∨ k1 = nan ∨ k2 = nan ∨ Vr = nan) → v = nan) ∧
      (v = nan ∨ (∃ s, v = inf s) ∨ ∃ s, v = zero s) := by
  refine ⟨_, rfl, ?_, ?_⟩
  · intro hn
    unfold compute_CB
    rcases hn with hn | hn | hn | hn | hn <;> subst hn <;>
      simp only [nan_mul, mul_nan, nan_add, add_nan, nan_div, div_nan]
  · by_cases hN : (ofRat 2 * k1 * Vr * Q * CA_in).isFinite = false
    · rcases not_finite_cases (isFinite_div_left ((Q + k1 * Vr) * (Q + k2 * Vr)) hN)
        with h1 | ⟨s, h1⟩
      · exact Or.inl h1
      · exact Or.inr (Or.inl ⟨s, h1⟩)
    · have hD : ((Q + k1 * Vr) * (Q + k2 * Vr)).isFinite = false := by
        rcases h with h | h | h | h | h
        · exact isFinite_mul_left _ (isFinite_add_left _ h)
        · exact absurd (isFinite_mul_right _ h) hN
        · exact isFinite_mul_left _ (isFinite_add_right _ (isFinite_mul_left _ h))
        · exact isFinite_mul_right _ (isFinite_add_right _ (isFinite_mul_left _ h))
        · exact isFinite_mul_left _ (isFinite_add_right _ (isFinite_mul_right _ h))
      rcases div_right_not_finite (ofRat 2 * k1 * Vr * Q * CA_in) hD with h1 | ⟨s, h1⟩
      · exact Or.inl h1
      · exact Or.inr (Or.inr ⟨s, h1⟩)

/-- Witness for `compute_CB_non_finite_input`: the call with CA_in = +∞ and all
other arguments equal to 1. -/
theorem compute_CB_non_finite_input_witness :
    ∃ v, call_compute_CB (ofRat 1) (inf false) (ofRat 1) (ofRat 1) (ofRat 1)
        = Outcome.returned v ∧
      ((ofRat 1 = nan ∨ inf false = nan ∨ ofRat 1 = nan ∨ ofRat 1 = nan ∨ ofRat 1 = nan)
        → v = nan) ∧
      (v = nan ∨ (∃ s, v = inf s) ∨ ∃ s, v = zero s) :=
  compute_CB_non_finite_input (ofRat 1) (inf false) (ofRat 1) (ofRat 1) (ofRat 1)
    (Or.inr (Or.inl rfl))

namespace IEEE

end IEEE

namespace IEEE

end IEEE

namespace IEEE

end IEEE

namespace IEEE

end IEEE

namespace IEEE

end IEEE

namespace IEEE

end IEEE

end Reactor
